import Mathlib

/-!
Verification of the crypto_plusplus order-book engine.

This file shallowly embeds the two core components of the repository:

* `CircularBuffer` — the single-producer/single-consumer ring buffer of
  `src/include/circular_buffer.h` (instantiated by the program with
  `Size = 1024`, a power of two, so index wraparound is the bitmask
  `&&& 1023`).  The slot array is modelled as a function `ℕ → T`; the
  atomic loads/stores of the C++ code are modelled as plain reads and
  writes, which is faithful for the functional (single-interleaving)
  properties proved here.
* `OrderBook` — the snapshot/diff synchronisation engine of
  `src/include/order_book.h`.  Prices and quantities (C++ `double`
  values obtained through `stod`) are modelled as integers (scaled
  decimals); a field whose `stod`/`stoll` parse would throw is modelled
  as `none`.  The `std::unordered_map` sides are modelled as
  association lists with unique keys, the `std::priority_queue` heaps
  as lists whose top is the maximum (bids) resp. minimum (asks)
  element.  The HTTP snapshot endpoint is modelled as a stream of
  attempt outcomes (`SnapAttempt`), one per loop iteration of the
  snapshot-retry loop in `OrderBook::init`.

For the order-book functions the ingestion buffer is used through its
queue abstraction (`ListBuf`): `try_pop` takes the head, `try_push`
appends at the tail when fewer than `Size - 1` items are stored.  This
abstraction is exactly the one validated against the index-level ring
model by the representation lemmas `rep_try_push`, `rep_try_push_full`,
`rep_try_pop` and `rep_try_pop_empty` below.
-/

namespace CryptoPP

/-! ## Ring buffer (`src/include/circular_buffer.h`) -/

/-- Buffer capacity: the program instantiates `CircularBuffer<Binance_DiffDepth, 1024>`. -/
def SIZE : ℕ := 1024

/-- Bit mask `Size - 1` used for wraparound (`size_t Mask = Size - 1`). -/
def MASK : ℕ := 1023

/-- Modulus of C++ `size_t` arithmetic (64-bit). -/
def SIZE64 : ℕ := 2 ^ 64

structure CircularBuffer (T : Type) where
  buffer : ℕ → T
  read_index : ℕ
  write_index : ℕ
  is_ready : Bool

/-- Embeds `CircularBuffer::try_push`: compute `next_write = (write+1) & Mask`;
fail (returning the unmodified buffer) iff `next_write == read_index`,
otherwise store the value at the current write index and publish `next_write`. -/
def try_push {T : Type} (b : CircularBuffer T) (v : T) : CircularBuffer T × Bool :=
  let current_write := b.write_index
  let next_write := (current_write + 1) &&& MASK
  if next_write = b.read_index then (b, false)
  else ({ b with
            buffer := fun i => if i = current_write then v else b.buffer i,
            write_index := next_write }, true)

/-- Embeds `CircularBuffer::try_pop`: fail iff `read_index == write_index`,
otherwise return the slot at `read_index` and advance `read_index` by one,
masked. -/
def try_pop {T : Type} (b : CircularBuffer T) : CircularBuffer T × Option T :=
  if b.read_index = b.write_index then (b, none)
  else ({ b with read_index := (b.read_index + 1) &&& MASK }, some (b.buffer b.read_index))

/-- Embeds `CircularBuffer::try_read` (peek): fail iff empty; on success the
indices are untouched, so the returned buffer is the argument itself. -/
def try_read {T : Type} (b : CircularBuffer T) : CircularBuffer T × Option T :=
  if b.read_index = b.write_index then (b, none)
  else (b, some (b.buffer b.read_index))

/-- Embeds `CircularBuffer::size`: `(write_index - read_index) & Mask`,
where the subtraction is C++ `size_t` (mod `2^64`) subtraction. -/
def bufSize {T : Type} (b : CircularBuffer T) : ℕ :=
  ((b.write_index + (SIZE64 - b.read_index)) % SIZE64) &&& MASK

/-- Embeds `CircularBuffer::set_is_ready`. -/
def set_is_ready {T : Type} (b : CircularBuffer T) (s : Bool) : CircularBuffer T :=
  { b with is_ready := s }

/-- A freshly constructed buffer: both indices zero, not ready, slots
default-initialised (the C++ `std::array` value-initialises its slots;
the slot contents are irrelevant until written). -/
def emptyBuf {T : Type} (d : T) : CircularBuffer T :=
  { buffer := fun _ => d, read_index := 0, write_index := 0, is_ready := false }

/-- States of the ring buffer reachable by any sequence of
`try_push`/`try_pop`/`set_is_ready` calls from a freshly constructed buffer. -/
inductive ReachableBuf {T : Type} : CircularBuffer T → Prop
  | base (d : T) : ReachableBuf (emptyBuf d)
  | push (v : T) {b : CircularBuffer T} : ReachableBuf b → ReachableBuf (try_push b v).1
  | pop {b : CircularBuffer T} : ReachableBuf b → ReachableBuf (try_pop b).1
  | ready (s : Bool) {b : CircularBuffer T} : ReachableBuf b → ReachableBuf (set_is_ready b s)

theorem and_MASK (n : ℕ) : n &&& MASK = n % SIZE := by
  have h := Nat.and_pow_two_sub_one_eq_mod n 10
  norm_num at h
  simpa [MASK, SIZE] using h

/-- Representation relation: buffer `b` holds exactly the queue `l`
(oldest first), with in-range indices. -/
def Rep {T : Type} (b : CircularBuffer T) (l : List T) : Prop :=
  b.read_index < SIZE ∧ b.write_index < SIZE ∧ l.length ≤ SIZE - 1 ∧
  b.write_index = (b.read_index + l.length) % SIZE ∧
  ∀ i x, l[i]? = some x → b.buffer ((b.read_index + i) % SIZE) = x

theorem rep_emptyBuf {T : Type} (d : T) : Rep (emptyBuf d) [] := by
  refine ⟨by norm_num [emptyBuf, SIZE], by norm_num [emptyBuf, SIZE], by simp, by
    simp [emptyBuf, SIZE], ?_⟩
  intro i x hx
  simp at hx

theorem rep_try_push {T : Type} {b : CircularBuffer T} {l : List T} (hrep : Rep b l)
    (hlen : l.length < SIZE - 1) (v : T) :
    (try_push b v).2 = true ∧ Rep (try_push b v).1 (l ++ [v]) := by
  obtain ⟨hr, hw, hl, hwr, hslot⟩ := hrep
  have hne : ¬ (b.write_index + 1) &&& MASK = b.read_index := by
    rw [and_MASK]
    simp only [SIZE] at *
    omega
  have hpush : try_push b v =
      ({ buffer := fun i => if i = b.write_index then v else b.buffer i,
         read_index := b.read_index,
         write_index := (b.write_index + 1) % SIZE,
         is_ready := b.is_ready }, true) := by
    simp only [try_push, and_MASK, hne, if_neg]
    rw [and_MASK] at hne
    simp [hne]
  rw [hpush]
  refine ⟨rfl, hr, ?_, ?_, ?_, ?_⟩
  · simp only [SIZE] at *
    omega
  · simp only [SIZE, List.length_append, List.length_cons, List.length_nil] at *
    omega
  · simp only [SIZE, List.length_append, List.length_cons, List.length_nil] at *
    omega
  · intro i x hx
    have hilt : i < l.length + 1 := by
      have := List.getElem?_eq_some_iff.mp hx
      simpa using this.1
    rcases Nat.lt_or_ge i l.length with hi | hi
    · have hxl : l[i]? = some x := by
        rw [List.getElem?_append_left hi] at hx
        exact hx
      have hneq : ¬ (b.read_index + i) % SIZE = b.write_index := by
        simp only [SIZE] at *
        omega
      simpa [hneq] using hslot i x hxl
    · have hieq : i = l.length := by omega
      subst hieq
      have hxv : x = v := by
        rw [List.getElem?_append_right (Nat.le_refl _)] at hx
        simpa using hx.symm
      have heq : (b.read_index + l.length) % SIZE = b.write_index := hwr.symm
      simp [heq, hxv]

theorem rep_try_push_full {T : Type} {b : CircularBuffer T} {l : List T} (hrep : Rep b l)
    (hlen : l.length = SIZE - 1) (v : T) : try_push b v = (b, false) := by
  obtain ⟨hr, hw, hl, hwr, hslot⟩ := hrep
  have heq : (b.write_index + 1) &&& MASK = b.read_index := by
    rw [and_MASK]
    simp only [SIZE] at *
    omega
  simp [try_push, heq]

theorem rep_try_pop {T : Type} {b : CircularBuffer T} {x : T} {l : List T}
    (hrep : Rep b (x :: l)) :
    (try_pop b).2 = some x ∧ Rep (try_pop b).1 l := by
  obtain ⟨hr, hw, hl, hwr, hslot⟩ := hrep
  simp only [List.length_cons] at hl hwr
  have hne : ¬ b.read_index = b.write_index := by
    simp only [SIZE] at *
    omega
  have hx0 : b.buffer b.read_index = x := by
    have := hslot 0 x (by simp)
    simpa [Nat.mod_eq_of_lt hr] using this
  have hpop : try_pop b =
      ({ buffer := b.buffer, read_index := (b.read_index + 1) % SIZE,
         write_index := b.write_index, is_ready := b.is_ready },
       some (b.buffer b.read_index)) := by
    simp only [try_pop, and_MASK, hne, if_neg]
    simp [hne]
  rw [hpop]
  refine ⟨by simp [hx0], ?_, hw, ?_, ?_, ?_⟩
  · simp only [SIZE] at *
    omega
  · simp only [SIZE] at *
    omega
  · simp only [SIZE] at *
    omega
  · intro i y hy
    have hilt : i < l.length := by
      have := List.getElem?_eq_some_iff.mp hy
      exact this.1
    have hmod : ((b.read_index + 1) % SIZE + i) % SIZE = (b.read_index + (i + 1)) % SIZE := by
      simp only [SIZE] at *
      omega
    have := hslot (i + 1) y (by simpa using hy)
    simp only [hmod]
    simpa using this

theorem rep_try_pop_empty {T : Type} {b : CircularBuffer T} (hrep : Rep b []) :
    try_pop b = (b, none) := by
  obtain ⟨hr, hw, hl, hwr, hslot⟩ := hrep
  have heq : b.read_index = b.write_index := by
    simp only [List.length_nil] at hwr
    simp only [SIZE] at *
    omega
  simp [try_pop, heq]

theorem rep_set_is_ready {T : Type} {b : CircularBuffer T} {l : List T} (hrep : Rep b l)
    (s : Bool) : Rep (set_is_ready b s) l := by
  obtain ⟨hr, hw, hl, hwr, hslot⟩ := hrep
  exact ⟨hr, hw, hl, hwr, hslot⟩

theorem reachable_rep {T : Type} {b : CircularBuffer T} (h : ReachableBuf b) :
    ∃ l, Rep b l := by
  induction h with
  | base d => exact ⟨[], rep_emptyBuf d⟩
  | push v hb ih =>
    obtain ⟨l, hl⟩ := ih
    rcases Nat.lt_or_ge l.length (SIZE - 1) with hlt | hge
    · exact ⟨l ++ [v], (rep_try_push hl hlt v).2⟩
    · have hlen : l.length = SIZE - 1 := Nat.le_antisymm hl.2.2.1 hge
      refine ⟨l, ?_⟩
      rw [rep_try_push_full hl hlen v]
      exact hl
  | pop hb ih =>
    obtain ⟨l, hl⟩ := ih
    match l, hl with
    | [], hl =>
      refine ⟨[], ?_⟩
      rw [rep_try_pop_empty hl]
      exact hl
    | x :: l, hl => exact ⟨l, (rep_try_pop hl).2⟩
  | ready s hb ih =>
    obtain ⟨l, hl⟩ := ih
    exact ⟨l, rep_set_is_ready hl s⟩

theorem rep_bufSize {T : Type} {b : CircularBuffer T} {l : List T} (hrep : Rep b l) :
    bufSize b = l.length := by
  obtain ⟨hr, hw, hl, hwr, _⟩ := hrep
  simp only [bufSize, and_MASK, SIZE64]
  simp only [SIZE] at *
  omega

/-- Fold of `try_push` over a list of values; the boolean is true iff every
push succeeded. -/
def pushAll {T : Type} (b : CircularBuffer T) : List T → CircularBuffer T × Bool
  | [] => (b, true)
  | x :: xs =>
    let r := try_push b x
    let rest := pushAll r.1 xs
    (rest.1, r.2 && rest.2)

/-- Pop `n` times, collecting the returned values in order; stops early if a
pop fails. -/
def popAll {T : Type} (b : CircularBuffer T) : ℕ → CircularBuffer T × List T
  | 0 => (b, [])
  | n + 1 =>
    match try_pop b with
    | (b', some v) =>
      let rest := popAll b' n
      (rest.1, v :: rest.2)
    | (b', none) => (b', [])

theorem rep_pushAll {T : Type} (xs : List T) {b : CircularBuffer T} {l : List T}
    (hrep : Rep b l) (hlen : l.length + xs.length ≤ SIZE - 1) :
    (pushAll b xs).2 = true ∧ Rep (pushAll b xs).1 (l ++ xs) := by
  induction xs generalizing b l with
  | nil => simpa [pushAll] using hrep
  | cons x xs ih =>
    have hx := rep_try_push hrep (by simp at hlen; omega) x
    have hrec := ih hx.2 (by simp at hlen ⊢; omega)
    simp only [pushAll]
    refine ⟨by rw [hx.1, hrec.1]; rfl, ?_⟩
    have : l ++ [x] ++ xs = l ++ x :: xs := by simp
    rw [this] at hrec
    exact hrec.2

theorem rep_popAll {T : Type} (l : List T) {b : CircularBuffer T} (hrep : Rep b l) :
    (popAll b l.length).2 = l ∧ Rep (popAll b l.length).1 [] := by
  induction l generalizing b with
  | nil => exact ⟨rfl, hrep⟩
  | cons x l ih =>
    have hx := rep_try_pop hrep
    have hrec := ih hx.2
    cases hp : try_pop b with
    | mk b' o =>
      have ho : o = some x := by rw [hp] at hx; exact hx.1
      subst ho
      have hb' : Rep b' l := by rw [hp] at hx; exact hx.2
      have hrec := ih hb'
      simp only [List.length_cons, popAll, hp]
      exact ⟨by rw [hrec.1], hrec.2⟩

/-- C6: starting from an empty ring buffer, any sequence of at most
`capacity − 1` `try_push` calls all succeed, and popping that many times
returns exactly the pushed values in FIFO order. -/
theorem c6_push_pop_fifo {T : Type} (d : T) (xs : List T) (hlen : xs.length ≤ SIZE - 1) :
    (pushAll (emptyBuf d) xs).2 = true ∧
    (popAll (pushAll (emptyBuf d) xs).1 xs.length).2 = xs := by
  have h1 := rep_pushAll xs (rep_emptyBuf d) (by simpa using hlen)
  have h2 : Rep (pushAll (emptyBuf d) xs).1 xs := by simpa using h1.2
  exact ⟨h1.1, (rep_popAll xs h2).1⟩

theorem c6_push_pop_fifo_witness :
    (pushAll (emptyBuf (0 : ℤ)) [3, 1, 2]).2 = true ∧
    (popAll (pushAll (emptyBuf (0 : ℤ)) [3, 1, 2]).1 3).2 = [3, 1, 2] :=
  c6_push_pop_fifo 0 [3, 1, 2] (by norm_num [SIZE])

/-- C7: `try_push` fails, mutating nothing, exactly when the masked successor
of the write index equals the read index — equivalently, on reachable states,
exactly when `size` is `capacity − 1` (one slot always stays empty);
`try_pop`/`try_read` fail exactly when `read_index == write_index`, and a
successful `try_read` does not remove the item. -/
theorem c7_full_empty_behaviour {T : Type} (b : CircularBuffer T) (v : T) :
    ((try_push b v).2 = false ↔ (b.write_index + 1) &&& MASK = b.read_index) ∧
    ((try_push b v).2 = false → (try_push b v).1 = b) ∧
    (ReachableBuf b → ((try_push b v).2 = false ↔ bufSize b = SIZE - 1)) ∧
    ((try_pop b).2 = none ↔ b.read_index = b.write_index) ∧
    ((try_pop b).2 = none → (try_pop b).1 = b) ∧
    ((try_read b).2 = none ↔ b.read_index = b.write_index) ∧
    (try_read b).1 = b := by
  refine ⟨?_, ?_, ?_, ?_, ?_, ?_, ?_⟩
  · by_cases hc : (b.write_index + 1) &&& MASK = b.read_index <;> simp [try_push, hc]
  · intro hf
    by_cases hc : (b.write_index + 1) &&& MASK = b.read_index
    · simp [try_push, hc]
    · simp [try_push, hc] at hf
  · intro hreach
    obtain ⟨l, hl⟩ := reachable_rep hreach
    rw [rep_bufSize hl]
    constructor
    · intro hf
      by_contra hne
      have hlt : l.length < SIZE - 1 := by
        have := hl.2.2.1
        omega
      have := (rep_try_push hl hlt v).1
      rw [this] at hf
      simp at hf
    · intro hfull
      rw [rep_try_push_full hl hfull v]
  · by_cases hc : b.read_index = b.write_index <;> simp [try_pop, hc]
  · intro hf
    by_cases hc : b.read_index = b.write_index
    · simp [try_pop, hc]
    · simp [try_pop, hc] at hf
  · by_cases hc : b.read_index = b.write_index <;> simp [try_read, hc]
  · by_cases hc : b.read_index = b.write_index <;> simp [try_read, hc]

theorem c7_full_empty_behaviour_witness :
    ((try_push (emptyBuf (0 : ℤ)) 5).2 = false ↔ bufSize (emptyBuf (0 : ℤ)) = SIZE - 1) ∧
    ((try_pop (emptyBuf (0 : ℤ))).2 = none ↔
      (emptyBuf (0 : ℤ)).read_index = (emptyBuf (0 : ℤ)).write_index) :=
  ⟨(c7_full_empty_behaviour (emptyBuf (0 : ℤ)) 5).2.2.1 (ReachableBuf.base 0),
   (c7_full_empty_behaviour (emptyBuf (0 : ℤ)) 5).2.2.2.1⟩

/-- C8: on every reachable ring-buffer state, `size()` equals
`(write_index − read_index) mod capacity` (as integers), and in particular is
at most `capacity − 1`. -/
theorem c8_size_eq_index_difference_mod {T : Type} (b : CircularBuffer T)
    (h : ReachableBuf b) :
    (bufSize b : ℤ) = ((b.write_index : ℤ) - (b.read_index : ℤ)) % (SIZE : ℤ) ∧
    bufSize b ≤ SIZE - 1 := by
  obtain ⟨l, hl⟩ := reachable_rep h
  rw [rep_bufSize hl]
  obtain ⟨hr, hw, hlen, hwr, -⟩ := hl
  constructor
  · simp only [SIZE] at *
    omega
  · simp only [SIZE] at *
    omega

theorem c8_size_eq_index_difference_mod_witness :
    (bufSize ((try_push (emptyBuf (0 : ℤ)) 7).1) : ℤ) =
      ((((try_push (emptyBuf (0 : ℤ)) 7).1).write_index : ℤ) -
        (((try_push (emptyBuf (0 : ℤ)) 7).1).read_index : ℤ)) % (SIZE : ℤ) ∧
    bufSize ((try_push (emptyBuf (0 : ℤ)) 7).1) ≤ SIZE - 1 :=
  c8_size_eq_index_difference_mod _ (ReachableBuf.push 7 (ReachableBuf.base 0))

/-! ## Order book data model (`src/include/order_book.h`)

Prices and quantities are modelled as integers (scaled decimals); a numeric
field whose `stod`/`stoll` would throw is `none`.  The `std::unordered_map`
sides are association lists with unique keys; `operator[]` assignment is
`mapInsert` (replace-or-append), `erase` is `mapErase` (removes every entry
with the key, which on the unique-key states an `unordered_map` can be in is
the same as removing the one entry), `find` is `mapFind?`. -/

def mapFind? : List (ℤ × ℤ) → ℤ → Option ℤ
  | [], _ => none
  | pr :: rest, p => if pr.1 = p then some pr.2 else mapFind? rest p

def mapInsert : List (ℤ × ℤ) → ℤ → ℤ → List (ℤ × ℤ)
  | [], p, q => [(p, q)]
  | pr :: rest, p, q => if pr.1 = p then (p, q) :: rest else pr :: mapInsert rest p q

def mapErase : List (ℤ × ℤ) → ℤ → List (ℤ × ℤ)
  | [], _ => []
  | pr :: rest, p => if pr.1 = p then mapErase rest p else pr :: mapErase rest p

theorem find_mapInsert (m : List (ℤ × ℤ)) (p q p' : ℤ) :
    mapFind? (mapInsert m p q) p' = if p = p' then some q else mapFind? m p' := by
  induction m with
  | nil => simp [mapInsert, mapFind?]
  | cons pr rest ih =>
    by_cases h1 : pr.1 = p
    · by_cases h2 : p = p'
      · subst h2
        simp [mapInsert, mapFind?, h1]
      · have h4 : ¬ pr.1 = p' := by rw [h1]; exact h2
        have h6 : ¬ p' = p := fun he => h2 he.symm
        simp [mapInsert, mapFind?, h1, h2, h4, h6]
    · by_cases h2 : p = p'
      · subst h2
        simp [mapInsert, mapFind?, h1, ih]
      · by_cases h5 : pr.1 = p'
        · have h6 : ¬ p' = p := fun he => h2 he.symm
          simp [mapInsert, mapFind?, h1, h2, h5, h6]
        · simp [mapInsert, mapFind?, h1, h2, h5, ih]

theorem find_mapErase (m : List (ℤ × ℤ)) (p p' : ℤ) :
    mapFind? (mapErase m p) p' = if p = p' then none else mapFind? m p' := by
  induction m with
  | nil => simp [mapErase, mapFind?]
  | cons pr rest ih =>
    by_cases h1 : pr.1 = p
    · by_cases h2 : p = p'
      · subst h2
        simp [mapErase, mapFind?, h1, ih]
      · have h4 : ¬ pr.1 = p' := by rw [h1]; exact h2
        have h6 : ¬ p' = p := fun he => h2 he.symm
        simp [mapErase, mapFind?, h1, h2, h4, h6, ih]
    · by_cases h2 : p = p'
      · subst h2
        simp [mapErase, mapFind?, h1, ih]
      · by_cases h5 : pr.1 = p'
        · have h6 : ¬ p' = p := fun he => h2 he.symm
          simp [mapErase, mapFind?, h1, h2, h5, h6, ih]
        · simp [mapErase, mapFind?, h1, h2, h5, ih]

theorem mem_mapInsert {m : List (ℤ × ℤ)} {p q : ℤ} {pr : ℤ × ℤ}
    (h : pr ∈ mapInsert m p q) : pr = (p, q) ∨ pr ∈ m := by
  induction m with
  | nil => simpa [mapInsert] using h
  | cons hd rest ih =>
    by_cases h1 : hd.1 = p
    · simp only [mapInsert, h1, if_pos, List.mem_cons] at h
      rcases h with h | h
      · exact Or.inl h
      · exact Or.inr (List.mem_cons_of_mem _ h)
    · simp only [mapInsert, h1, if_neg, List.mem_cons, not_false_eq_true] at h
      rcases h with h | h
      · exact Or.inr (by simp [h])
      · rcases ih h with h' | h'
        · exact Or.inl h'
        · exact Or.inr (List.mem_cons_of_mem _ h')

theorem mem_mapErase {m : List (ℤ × ℤ)} {p : ℤ} {pr : ℤ × ℤ}
    (h : pr ∈ mapErase m p) : pr ∈ m := by
  induction m with
  | nil => simp [mapErase] at h
  | cons hd rest ih =>
    by_cases h1 : hd.1 = p
    · simp only [mapErase, h1, if_pos] at h
      exact List.mem_cons_of_mem _ (ih h)
    · simp only [mapErase, h1, if_neg, List.mem_cons, not_false_eq_true] at h
      rcases h with h | h
      · simp [h]
      · exact List.mem_cons_of_mem _ (ih h)

theorem find_isSome_of_mem {m : List (ℤ × ℤ)} {pr : ℤ × ℤ} (h : pr ∈ m) :
    (mapFind? m pr.1).isSome := by
  induction m with
  | nil => simp at h
  | cons hd rest ih =>
    rcases List.mem_cons.mp h with h | h
    · simp [mapFind?, h]
    · by_cases h1 : hd.1 = pr.1 <;> simp [mapFind?, h1, ih h]

theorem find_mem {m : List (ℤ × ℤ)} {p q : ℤ} (h : mapFind? m p = some q) :
    (p, q) ∈ m := by
  induction m with
  | nil => simp [mapFind?] at h
  | cons hd rest ih =>
    by_cases h1 : hd.1 = p
    · simp only [mapFind?, h1, if_pos, Option.some.injEq] at h
      subst h
      simp only [List.mem_cons]
      exact Or.inl (Prod.ext h1.symm rfl)
    · have h' : mapFind? rest p = some q := by simpa [mapFind?, h1] using h
      exact List.mem_cons_of_mem _ (ih h')

/-! ### Heaps

A `std::priority_queue<double>` is modelled as the multiset (list) of its
elements; `top()` is the maximum (`maxO`) for the bid heap and the minimum
(`minO`) for the ask heap, `push` is `List.cons`, `pop` erases one occurrence
of the top. -/

def maxO : List ℤ → Option ℤ
  | [] => none
  | x :: xs =>
    match maxO xs with
    | none => some x
    | some m => some (max x m)

def minO : List ℤ → Option ℤ
  | [] => none
  | x :: xs =>
    match minO xs with
    | none => some x
    | some m => some (min x m)

theorem maxO_eq_none_iff (l : List ℤ) : maxO l = none ↔ l = [] := by
  cases l with
  | nil => simp [maxO]
  | cons x xs =>
    simp only [maxO]
    cases maxO xs <;> simp

theorem minO_eq_none_iff (l : List ℤ) : minO l = none ↔ l = [] := by
  cases l with
  | nil => simp [minO]
  | cons x xs =>
    simp only [minO]
    cases minO xs <;> simp

theorem maxO_mem {l : List ℤ} {t : ℤ} (h : maxO l = some t) : t ∈ l := by
  induction l with
  | nil => simp [maxO] at h
  | cons x xs ih =>
    simp only [maxO] at h
    cases hm : maxO xs with
    | none => rw [hm] at h; simp at h; simp [h]
    | some m =>
      rw [hm] at h
      simp only [Option.some.injEq] at h
      rcases max_cases x m with ⟨he, -⟩ | ⟨he, -⟩
      · rw [he] at h; simp [h]
      · rw [he] at h
        exact List.mem_cons_of_mem _ (ih (h ▸ hm))

theorem minO_mem {l : List ℤ} {t : ℤ} (h : minO l = some t) : t ∈ l := by
  induction l with
  | nil => simp [minO] at h
  | cons x xs ih =>
    simp only [minO] at h
    cases hm : minO xs with
    | none => rw [hm] at h; simp at h; simp [h]
    | some m =>
      rw [hm] at h
      simp only [Option.some.injEq] at h
      rcases min_cases x m with ⟨he, -⟩ | ⟨he, -⟩
      · rw [he] at h; simp [h]
      · rw [he] at h
        exact List.mem_cons_of_mem _ (ih (h ▸ hm))

theorem le_maxO {l : List ℤ} {x t : ℤ} (hx : x ∈ l) (h : maxO l = some t) : x ≤ t := by
  induction l generalizing t with
  | nil => simp at hx
  | cons a xs ih =>
    simp only [maxO] at h
    cases hm : maxO xs with
    | none =>
      rw [hm] at h
      simp only [Option.some.injEq] at h
      have hxs : xs = [] := (maxO_eq_none_iff xs).mp hm
      subst hxs
      simp at hx
      omega
    | some m =>
      rw [hm] at h
      simp only [Option.some.injEq] at h
      subst h
      rcases List.mem_cons.mp hx with h | h
      · subst h; exact le_max_left _ _
      · exact le_trans (ih h hm) (le_max_right _ _)

theorem minO_le {l : List ℤ} {x t : ℤ} (hx : x ∈ l) (h : minO l = some t) : t ≤ x := by
  induction l generalizing t with
  | nil => simp at hx
  | cons a xs ih =>
    simp only [minO] at h
    cases hm : minO xs with
    | none =>
      rw [hm] at h
      simp only [Option.some.injEq] at h
      have hxs : xs = [] := (minO_eq_none_iff xs).mp hm
      subst hxs
      simp at hx
      omega
    | some m =>
      rw [hm] at h
      simp only [Option.some.injEq] at h
      subst h
      rcases List.mem_cons.mp hx with h | h
      · subst h; exact min_le_left _ _
      · exact le_trans (min_le_right _ _) (ih h hm)

/-! ### Lazy pruning

Embeds the `while (!heap.empty() && map.find(heap.top()) == map.end())
heap.pop();` loops at the bottom of `keep_orderbook_sync`.  The recursion is
fuelled by the heap length, which strictly decreases at each `pop`. -/

def pruneBidN (m : List (ℤ × ℤ)) : ℕ → List ℤ → List ℤ
  | 0, h => h
  | n + 1, h =>
    match maxO h with
    | none => h
    | some t => if (mapFind? m t).isSome then h else pruneBidN m n (h.erase t)

def pruneAskN (m : List (ℤ × ℤ)) : ℕ → List ℤ → List ℤ
  | 0, h => h
  | n + 1, h =>
    match minO h with
    | none => h
    | some t => if (mapFind? m t).isSome then h else pruneAskN m n (h.erase t)

def pruneBid (m : List (ℤ × ℤ)) (h : List ℤ) : List ℤ := pruneBidN m h.length h

def pruneAsk (m : List (ℤ × ℤ)) (h : List ℤ) : List ℤ := pruneAskN m h.length h

theorem pruneBidN_succ_none {m : List (ℤ × ℤ)} {n : ℕ} {h : List ℤ}
    (hm : maxO h = none) : pruneBidN m (n + 1) h = h := by
  simp [pruneBidN, hm]

theorem pruneBidN_succ_found {m : List (ℤ × ℤ)} {n : ℕ} {h : List ℤ} {t : ℤ}
    (hm : maxO h = some t) (hf : (mapFind? m t).isSome) :
    pruneBidN m (n + 1) h = h := by
  simp [pruneBidN, hm, hf]

theorem pruneBidN_succ_pop {m : List (ℤ × ℤ)} {n : ℕ} {h : List ℤ} {t : ℤ}
    (hm : maxO h = some t) (hf : ¬ (mapFind? m t).isSome) :
    pruneBidN m (n + 1) h = pruneBidN m n (h.erase t) := by
  simp [pruneBidN, hm, hf]

theorem pruneAskN_succ_none {m : List (ℤ × ℤ)} {n : ℕ} {h : List ℤ}
    (hm : minO h = none) : pruneAskN m (n + 1) h = h := by
  simp [pruneAskN, hm]

theorem pruneAskN_succ_found {m : List (ℤ × ℤ)} {n : ℕ} {h : List ℤ} {t : ℤ}
    (hm : minO h = some t) (hf : (mapFind? m t).isSome) :
    pruneAskN m (n + 1) h = h := by
  simp [pruneAskN, hm, hf]

theorem pruneAskN_succ_pop {m : List (ℤ × ℤ)} {n : ℕ} {h : List ℤ} {t : ℤ}
    (hm : minO h = some t) (hf : ¬ (mapFind? m t).isSome) :
    pruneAskN m (n + 1) h = pruneAskN m n (h.erase t) := by
  simp [pruneAskN, hm, hf]

theorem pruneBidN_top_found {m : List (ℤ × ℤ)} {t : ℤ} :
    ∀ {n : ℕ} {h : List ℤ}, h.length ≤ n → maxO (pruneBidN m n h) = some t →
      (mapFind? m t).isSome := by
  intro n
  induction n with
  | zero =>
    intro h hlen htop
    have : h = [] := List.length_eq_zero.mp (Nat.le_zero.mp hlen)
    subst this
    simp [pruneBidN, maxO] at htop
  | succ n ih =>
    intro h hlen htop
    cases hm : maxO h with
    | none =>
      rw [pruneBidN_succ_none hm, hm] at htop
      simp at htop
    | some t' =>
      by_cases hf : (mapFind? m t').isSome
      · rw [pruneBidN_succ_found hm hf, hm] at htop
        simp only [Option.some.injEq] at htop
        exact htop ▸ hf
      · rw [pruneBidN_succ_pop hm hf] at htop
        have hmem : t' ∈ h := maxO_mem hm
        have hlen' : (h.erase t').length ≤ n := by
          have := List.length_erase_add_one hmem
          omega
        exact ih hlen' htop

theorem pruneAskN_top_found {m : List (ℤ × ℤ)} {t : ℤ} :
    ∀ {n : ℕ} {h : List ℤ}, h.length ≤ n → minO (pruneAskN m n h) = some t →
      (mapFind? m t).isSome := by
  intro n
  induction n with
  | zero =>
    intro h hlen htop
    have : h = [] := List.length_eq_zero.mp (Nat.le_zero.mp hlen)
    subst this
    simp [pruneAskN, minO] at htop
  | succ n ih =>
    intro h hlen htop
    cases hm : minO h with
    | none =>
      rw [pruneAskN_succ_none hm, hm] at htop
      simp at htop
    | some t' =>
      by_cases hf : (mapFind? m t').isSome
      · rw [pruneAskN_succ_found hm hf, hm] at htop
        simp only [Option.some.injEq] at htop
        exact htop ▸ hf
      · rw [pruneAskN_succ_pop hm hf] at htop
        have hmem : t' ∈ h := minO_mem hm
        have hlen' : (h.erase t').length ≤ n := by
          have := List.length_erase_add_one hmem
          omega
        exact ih hlen' htop

theorem pruneBidN_count {m : List (ℤ × ℤ)} {k : ℤ} (hk : (mapFind? m k).isSome) :
    ∀ (n : ℕ) (h : List ℤ), (pruneBidN m n h).count k = h.count k := by
  intro n
  induction n with
  | zero => intro h; rfl
  | succ n ih =>
    intro h
    cases hm : maxO h with
    | none => rw [pruneBidN_succ_none hm]
    | some t' =>
      by_cases hf : (mapFind? m t').isSome
      · rw [pruneBidN_succ_found hm hf]
      · rw [pruneBidN_succ_pop hm hf]
        have hne : t' ≠ k := fun he => hf (he ▸ hk)
        rw [ih (h.erase t'), List.count_erase_of_ne (fun he => hne he.symm)]

theorem pruneAskN_count {m : List (ℤ × ℤ)} {k : ℤ} (hk : (mapFind? m k).isSome) :
    ∀ (n : ℕ) (h : List ℤ), (pruneAskN m n h).count k = h.count k := by
  intro n
  induction n with
  | zero => intro h; rfl
  | succ n ih =>
    intro h
    cases hm : minO h with
    | none => rw [pruneAskN_succ_none hm]
    | some t' =>
      by_cases hf : (mapFind? m t').isSome
      · rw [pruneAskN_succ_found hm hf]
      · rw [pruneAskN_succ_pop hm hf]
        have hne : t' ≠ k := fun he => hf (he ▸ hk)
        rw [ih (h.erase t'), List.count_erase_of_ne (fun he => hne he.symm)]

theorem mem_pruneBidN {m : List (ℤ × ℤ)} {k : ℤ} (hk : (mapFind? m k).isSome)
    (n : ℕ) (h : List ℤ) (hmem : k ∈ h) : k ∈ pruneBidN m n h := by
  have hc : (pruneBidN m n h).count k = h.count k := pruneBidN_count hk n h
  have hpos : 0 < h.count k := List.count_pos_iff.mpr hmem
  exact List.count_pos_iff.mp (by omega)

theorem mem_pruneAskN {m : List (ℤ × ℤ)} {k : ℤ} (hk : (mapFind? m k).isSome)
    (n : ℕ) (h : List ℤ) (hmem : k ∈ h) : k ∈ pruneAskN m n h := by
  have hc : (pruneAskN m n h).count k = h.count k := pruneAskN_count hk n h
  have hpos : 0 < h.count k := List.count_pos_iff.mpr hmem
  exact List.count_pos_iff.mp (by omega)

/-! ### Program data types -/

/-- Decoded diff-depth update (`Binance_DiffDepth`, fields as used by
`order_book.h` and filled in by `main.cpp`): the `U`/`u` id strings are
modelled by the result of `stoll` (`none` = the parse throws, which also
covers the empty string), and each `bids`/`asks` level is the pair of
`stod` results for its price and quantity strings. -/
structure Binance_DiffDepth where
  first_update_id : Option ℤ
  final_update_id : Option ℤ
  bids : List (Option ℤ × Option ℤ)
  asks : List (Option ℤ × Option ℤ)
deriving DecidableEq

/-- The mutable order-book members of the `OrderBook` class: `bid_map`,
`ask_map`, `bid_heap`, `ask_heap`. -/
structure OrderBookState where
  bid_map : List (ℤ × ℤ)
  ask_map : List (ℤ × ℤ)
  bid_heap : List ℤ
  ask_heap : List ℤ
deriving DecidableEq

/-- Queue abstraction of the `CircularBuffer<Binance_DiffDepth, 1024>`
used by the order-book functions: `try_pop` takes the head, `try_push`
appends at the tail when fewer than `SIZE − 1` items are held.  This is the
abstraction validated by `rep_try_push`, `rep_try_push_full`, `rep_try_pop`
and `rep_try_pop_empty`. -/
structure ListBuf where
  items : List Binance_DiffDepth
  is_ready : Bool
deriving DecidableEq

/-- Outcome of one iteration of the snapshot-fetch loop in
`OrderBook::init` (one `cpr::Get` of the snapshot URL plus the simdjson
parse): HTTP status ≠ 200; a JSON error before `lastUpdateId` is read; a
JSON error after `lastUpdateId` is read but before any level is loaded
(e.g. a document without a `bids` array); or a fully parsed snapshot whose
levels are the `parse_price_level` results (`none` = that level is rejected
and skipped). -/
inductive SnapAttempt where
  | httpFail : SnapAttempt
  | badJson : SnapAttempt
  | headerOnly (L : ℤ) : SnapAttempt
  | snap (L : ℤ) (bids asks : List (Option (ℤ × ℤ))) : SnapAttempt
deriving DecidableEq

inductive InitError where
  | bufferNeverReady : InitError
  | readRetriesExhausted : InitError
  | parseFirstIdFailed : InitError
  | invalidSnapshot : InitError
deriving DecidableEq

def MAX_RETRIES : ℕ := 10

def MAX_SNAPSHOT_RETRIES : ℕ := 10

/-! ### Order book operations -/

/-- Embeds the snapshot level loops of `init` (lines 204–231): for each level
accepted by `parse_price_level`, insert it and push its price onto the heap
when its quantity is positive, otherwise skip it.  Note: nothing is erased
and the existing map contents are kept — `init` never clears the maps. -/
def applySnapLevels (m : List (ℤ × ℤ)) (h : List ℤ) :
    List (Option (ℤ × ℤ)) → List (ℤ × ℤ) × List ℤ
  | [] => (m, h)
  | none :: rest => applySnapLevels m h rest
  | some (price, quantity) :: rest =>
    if 0 < quantity then applySnapLevels (mapInsert m price quantity) (price :: h) rest
    else applySnapLevels m h rest

/-- Applies a parsed snapshot's bid and ask levels on top of the current
state (as `init` does — without clearing the maps or heaps first). -/
def applySnapshot (st : OrderBookState) (bids asks : List (Option (ℤ × ℤ))) :
    OrderBookState :=
  let rb := applySnapLevels st.bid_map st.bid_heap bids
  let ra := applySnapLevels st.ask_map st.ask_heap asks
  { bid_map := rb.1, ask_map := ra.1, bid_heap := rb.2, ask_heap := ra.2 }

/-- Embeds the per-side level loop of `keep_orderbook_sync` (lines 336–372):
`stod` the price then the quantity (a `none` models the throw, which aborts
the whole update mid-way, keeping the mutations made so far — the returned
flag is `false`); positive quantity upserts and pushes the price onto the
heap; zero/negative quantity erases the map entry. -/
def applyLevels (m : List (ℤ × ℤ)) (h : List ℤ) :
    List (Option ℤ × Option ℤ) → List (ℤ × ℤ) × List ℤ × Bool
  | [] => (m, h, true)
  | lv :: rest =>
    match lv.1 with
    | none => (m, h, false)
    | some price =>
      match lv.2 with
      | none => (m, h, false)
      | some quantity =>
        if 0 < quantity then applyLevels (mapInsert m price quantity) (price :: h) rest
        else applyLevels (mapErase m price) h rest

/-- Applies one update's bid levels then ask levels; the flag is `false` iff
a malformed numeric field aborted the update (the catch block of the live
loop), in which case the partially mutated state is kept. -/
def applyEvent (st : OrderBookState) (event : Binance_DiffDepth) :
    OrderBookState × Bool :=
  let rb := applyLevels st.bid_map st.bid_heap event.bids
  if rb.2.2 then
    let ra := applyLevels st.ask_map st.ask_heap event.asks
    ({ bid_map := rb.1, ask_map := ra.1, bid_heap := rb.2.1, ask_heap := ra.2.1 }, ra.2.2)
  else
    ({ bid_map := rb.1, ask_map := st.ask_map, bid_heap := rb.2.1, ask_heap := st.ask_heap },
     false)

/-- Runs both lazy-pruning loops (lines 386–395). -/
def pruneOB (st : OrderBookState) : OrderBookState :=
  { bid_map := st.bid_map, ask_map := st.ask_map,
    bid_heap := pruneBid st.bid_map st.bid_heap,
    ask_heap := pruneAsk st.ask_map st.ask_heap }

/-- The best-bid/best-ask/spread report (lines 398–403): produced only when
both heaps are non-empty; the spread is `ask top − bid top`. -/
def spreadOf (st : OrderBookState) : Option ℤ :=
  match maxO st.bid_heap, minO st.ask_heap with
  | some b, some a => some (a - b)
  | _, _ => none

/-- Embeds the `try_read` retry loop of `init` (lines 143–160).  The model
buffer is static between retries (no concurrent producer), so each attempt
peeks the same head. -/
def tryReadLoop (buf : ListBuf) : ℕ → Option Binance_DiffDepth
  | 0 => none
  | n + 1 =>
    match buf.items.head? with
    | some e => some e
    | none => tryReadLoop buf n

/-- Embeds the snapshot retry loop of `init` (lines 184–244), carrying the
local `last_update_id` (initially 0) and the book state across iterations.
An `httpFail`/`badJson` attempt changes nothing; a `headerOnly` attempt
updates `last_update_id` and then throws (caught, loop continues); a fully
parsed snapshot updates `last_update_id`, and when it validates
(`last_update_id ≥ first_update_id`) its levels are applied and the loop
breaks. -/
def snapLoop (first_update_id : ℤ) (att : ℕ → SnapAttempt) :
    ℕ → ℕ → ℤ → OrderBookState → ℤ × OrderBookState
  | 0, _, last_update_id, st => (last_update_id, st)
  | fuel + 1, k, last_update_id, st =>
    match att k with
    | .httpFail => snapLoop first_update_id att fuel (k + 1) last_update_id st
    | .badJson => snapLoop first_update_id att fuel (k + 1) last_update_id st
    | .headerOnly L => snapLoop first_update_id att fuel (k + 1) L st
    | .snap L bids asks =>
      if first_update_id ≤ L then (L, applySnapshot st bids asks)
      else snapLoop first_update_id att fuel (k + 1) L st

/-- Embeds the buffer-drain loop of `init` (lines 254–285): pop while the
popped event's `final_update_id ≤ last_update_id` (an unparsable or empty
id is logged and skipped); the first event with `final_update_id >
last_update_id` is pushed BACK to the buffer via `try_push` — i.e. appended
at the tail, after any remaining items — and the loop breaks. -/
def drainLoop (last_update_id : ℤ) : List Binance_DiffDepth → List Binance_DiffDepth
  | [] => []
  | event :: rest =>
    match event.final_update_id with
    | none => drainLoop last_update_id rest
    | some event_final_id =>
      if last_update_id < event_final_id then
        if rest.length < SIZE - 1 then rest ++ [event] else rest
      else drainLoop last_update_id rest

/-- Embeds `OrderBook::init` as a function of the current book state, the
buffer, and the stream of snapshot-fetch outcomes.  Errors model the
`std::runtime_error` throws; `bufferNeverReady` models the unbounded
ready-wait never returning.  The returned `ℤ` is the final value of the
local `last_update_id`, exposed for specification purposes (the C++
function returns only `true`). -/
def init (st : OrderBookState) (buf : ListBuf) (att : ℕ → SnapAttempt) :
    Except InitError (OrderBookState × ListBuf × ℤ) :=
  if buf.is_ready then
    match tryReadLoop buf MAX_RETRIES with
    | none => .error .readRetriesExhausted
    | some first_update =>
      match first_update.first_update_id with
      | none => .error .parseFirstIdFailed
      | some first_update_id =>
        let r := snapLoop first_update_id att MAX_SNAPSHOT_RETRIES 0 0 st
        if r.1 < first_update_id then .error .invalidSnapshot
        else .ok (r.2, { items := drainLoop r.1 buf.items, is_ready := buf.is_ready }, r.1)
  else .error .bufferNeverReady

/-- Embeds one iteration of the live loop `keep_orderbook_sync` (lines
302–407).  Input: the current state, buffer and the local cursor
`local_update_id`; output: their values at the end of the iteration.
An event is processed only if the buffer is ready and `try_pop` succeeds.
A stale event (`final < local`, strict in the code) is skipped via
`continue`, which also skips that iteration's pruning.  A "gap"
(`first > local` in the code) re-runs `init`; an `init` throw is caught by
the catch block (the update is dropped) and pruning still runs; after a
successful `init` the cursor is set to the event's final id and the event
is applied anyway.  Otherwise the event is applied; a malformed numeric
field aborts it mid-way (cursor not advanced).  Pruning runs at the end of
the iteration. -/
def keepIter (att : ℕ → SnapAttempt) (st : OrderBookState) (buf : ListBuf)
    (local_update_id : ℤ) : OrderBookState × ListBuf × ℤ :=
  if buf.is_ready then
    match buf.items with
    | [] => (pruneOB st, buf, local_update_id)
    | event :: rest =>
      let buf1 : ListBuf := { items := rest, is_ready := buf.is_ready }
      match event.first_update_id, event.final_update_id with
      | some event_first_update_id, some event_last_update_id =>
        if event_last_update_id < local_update_id then
          (st, buf1, local_update_id)
        else if local_update_id < event_first_update_id then
          match init st buf1 att with
          | .error _ => (pruneOB st, buf1, local_update_id)
          | .ok (st2, buf2, _) =>
            let r := applyEvent st2 event
            (pruneOB r.1, buf2, event_last_update_id)
        else
          let r := applyEvent st event
          (pruneOB r.1, buf1, if r.2 then event_last_update_id else local_update_id)
      | _, _ => (pruneOB st, buf1, local_update_id)
  else (pruneOB st, buf, local_update_id)

/-! ### Book-state invariants -/

/-- Every map entry has positive quantity. -/
def PosQty (m : List (ℤ × ℤ)) : Prop := ∀ pr ∈ m, 0 < pr.2

/-- Every map key occurs in the side's heap (so pruning can never starve a
present price level). -/
def KeyCover (m : List (ℤ × ℤ)) (h : List ℤ) : Prop := ∀ pr ∈ m, pr.1 ∈ h

def GoodState (st : OrderBookState) : Prop :=
  PosQty st.bid_map ∧ PosQty st.ask_map ∧
  KeyCover st.bid_map st.bid_heap ∧ KeyCover st.ask_map st.ask_heap

/-- Book states reachable by the program: the freshly constructed engine,
closed under snapshot application (`init`), update application
(`keep_orderbook_sync`) and lazy pruning — the only three operations that
ever mutate the maps and heaps. -/
inductive ReachableOB : OrderBookState → Prop
  | base : ReachableOB ⟨[], [], [], []⟩
  | snap (bids asks : List (Option (ℤ × ℤ))) {st : OrderBookState} :
      ReachableOB st → ReachableOB (applySnapshot st bids asks)
  | event (e : Binance_DiffDepth) {st : OrderBookState} :
      ReachableOB st → ReachableOB (applyEvent st e).1
  | prune {st : OrderBookState} : ReachableOB st → ReachableOB (pruneOB st)

theorem good_applySnapLevels (ls : List (Option (ℤ × ℤ))) :
    ∀ {m : List (ℤ × ℤ)} {h : List ℤ}, PosQty m → KeyCover m h →
      PosQty (applySnapLevels m h ls).1 ∧
      KeyCover (applySnapLevels m h ls).1 (applySnapLevels m h ls).2 := by
  induction ls with
  | nil => intro m h hq hc; exact ⟨hq, hc⟩
  | cons lv rest ih =>
    intro m h hq hc
    match lv with
    | none => exact ih hq hc
    | some (price, quantity) =>
      by_cases hpos : 0 < quantity
      · simp only [applySnapLevels, hpos, if_pos]
        apply ih
        · intro pr hpr
          rcases mem_mapInsert hpr with he | hm
          · rw [he]; exact hpos
          · exact hq pr hm
        · intro pr hpr
          rcases mem_mapInsert hpr with he | hm
          · rw [he]; exact List.mem_cons_self _ _
          · exact List.mem_cons_of_mem _ (hc pr hm)
      · simp only [applySnapLevels, hpos, if_neg, not_false_eq_true]
        exact ih hq hc

theorem good_applyLevels (ls : List (Option ℤ × Option ℤ)) :
    ∀ {m : List (ℤ × ℤ)} {h : List ℤ}, PosQty m → KeyCover m h →
      PosQty (applyLevels m h ls).1 ∧
      KeyCover (applyLevels m h ls).1 (applyLevels m h ls).2.1 := by
  induction ls with
  | nil => intro m h hq hc; exact ⟨hq, hc⟩
  | cons lv rest ih =>
    intro m h hq hc
    match h1 : lv.1 with
    | none => simp only [applyLevels, h1]; exact ⟨hq, hc⟩
    | some price =>
      match h2 : lv.2 with
      | none => simp only [applyLevels, h1, h2]; exact ⟨hq, hc⟩
      | some quantity =>
        by_cases hpos : 0 < quantity
        · simp only [applyLevels, h1, h2, hpos, if_pos]
          apply ih
          · intro pr hpr
            rcases mem_mapInsert hpr with he | hm
            · rw [he]; exact hpos
            · exact hq pr hm
          · intro pr hpr
            rcases mem_mapInsert hpr with he | hm
            · rw [he]; exact List.mem_cons_self _ _
            · exact List.mem_cons_of_mem _ (hc pr hm)
        · simp only [applyLevels, h1, h2, hpos, if_neg, not_false_eq_true]
          apply ih
          · intro pr hpr
            exact hq pr (mem_mapErase hpr)
          · intro pr hpr
            exact hc pr (mem_mapErase hpr)

theorem good_applySnapshot {st : OrderBookState} (bids asks : List (Option (ℤ × ℤ)))
    (hg : GoodState st) : GoodState (applySnapshot st bids asks) := by
  obtain ⟨hq1, hq2, hc1, hc2⟩ := hg
  have hb := good_applySnapLevels bids hq1 hc1
  have ha := good_applySnapLevels asks hq2 hc2
  exact ⟨hb.1, ha.1, hb.2, ha.2⟩

theorem good_applyEvent (e : Binance_DiffDepth) {st : OrderBookState}
    (hg : GoodState st) : GoodState (applyEvent st e).1 := by
  obtain ⟨hq1, hq2, hc1, hc2⟩ := hg
  have hb := good_applyLevels e.bids hq1 hc1
  have ha := good_applyLevels e.asks hq2 hc2
  simp only [applyEvent]
  by_cases hok : (applyLevels st.bid_map st.bid_heap e.bids).2.2 = true
  · simp only [hok, if_pos]
    exact ⟨hb.1, ha.1, hb.2, ha.2⟩
  · simp only [hok, if_neg, Bool.not_eq_true, not_false_eq_true]
    exact ⟨hb.1, hq2, hb.2, hc2⟩

theorem keyCover_pruneBid {m : List (ℤ × ℤ)} {h : List ℤ} (hc : KeyCover m h) :
    KeyCover m (pruneBid m h) := by
  intro pr hpr
  exact mem_pruneBidN (find_isSome_of_mem hpr) _ _ (hc pr hpr)

theorem keyCover_pruneAsk {m : List (ℤ × ℤ)} {h : List ℤ} (hc : KeyCover m h) :
    KeyCover m (pruneAsk m h) := by
  intro pr hpr
  exact mem_pruneAskN (find_isSome_of_mem hpr) _ _ (hc pr hpr)

theorem good_pruneOB {st : OrderBookState} (hg : GoodState st) :
    GoodState (pruneOB st) := by
  obtain ⟨hq1, hq2, hc1, hc2⟩ := hg
  exact ⟨hq1, hq2, keyCover_pruneBid hc1, keyCover_pruneAsk hc2⟩

theorem reachable_good {st : OrderBookState} (h : ReachableOB st) : GoodState st := by
  induction h with
  | base =>
    refine ⟨?_, ?_, ?_, ?_⟩ <;> intro pr hpr <;> simp at hpr
  | snap bids asks hst ih => exact good_applySnapshot bids asks ih
  | event e hst ih => exact good_applyEvent e ih
  | prune hst ih => exact good_pruneOB ih

/-- C4: on every reachable book state, after lazy pruning the top of a
non-empty side's heap is a present key of that side's map and bounds every
key (maximum for bids, minimum for asks); when a side's map is empty the
pruned heap is empty, so no best price is reported for it; and the reported
spread is best ask minus best bid. -/
theorem c4_pruned_tops_are_best (st : OrderBookState) (hreach : ReachableOB st) :
    (st.bid_map ≠ [] → ∃ b, maxO (pruneOB st).bid_heap = some b ∧
      (mapFind? st.bid_map b).isSome ∧ ∀ pr ∈ st.bid_map, pr.1 ≤ b) ∧
    (st.ask_map ≠ [] → ∃ a, minO (pruneOB st).ask_heap = some a ∧
      (mapFind? st.ask_map a).isSome ∧ ∀ pr ∈ st.ask_map, a ≤ pr.1) ∧
    (st.bid_map = [] → maxO (pruneOB st).bid_heap = none) ∧
    (st.ask_map = [] → minO (pruneOB st).ask_heap = none) ∧
    (∀ b a, maxO (pruneOB st).bid_heap = some b → minO (pruneOB st).ask_heap = some a →
      spreadOf (pruneOB st) = some (a - b)) := by
  obtain ⟨hq1, hq2, hc1, hc2⟩ := reachable_good hreach
  refine ⟨?_, ?_, ?_, ?_, ?_⟩
  · intro hne
    obtain ⟨pr0, hpr0⟩ := List.exists_mem_of_ne_nil st.bid_map hne
    have h0 : pr0.1 ∈ pruneBid st.bid_map st.bid_heap :=
      mem_pruneBidN (find_isSome_of_mem hpr0) _ _ (hc1 pr0 hpr0)
    cases hm : maxO (pruneBid st.bid_map st.bid_heap) with
    | none =>
      rw [maxO_eq_none_iff] at hm
      rw [hm] at h0
      simp at h0
    | some b =>
      refine ⟨b, hm, pruneBidN_top_found le_rfl hm, ?_⟩
      intro pr hpr
      have hmemp : pr.1 ∈ pruneBid st.bid_map st.bid_heap :=
        mem_pruneBidN (find_isSome_of_mem hpr) _ _ (hc1 pr hpr)
      exact le_maxO hmemp hm
  · intro hne
    obtain ⟨pr0, hpr0⟩ := List.exists_mem_of_ne_nil st.ask_map hne
    have h0 : pr0.1 ∈ pruneAsk st.ask_map st.ask_heap :=
      mem_pruneAskN (find_isSome_of_mem hpr0) _ _ (hc2 pr0 hpr0)
    cases hm : minO (pruneAsk st.ask_map st.ask_heap) with
    | none =>
      rw [minO_eq_none_iff] at hm
      rw [hm] at h0
      simp at h0
    | some a =>
      refine ⟨a, hm, pruneAskN_top_found le_rfl hm, ?_⟩
      intro pr hpr
      have hmemp : pr.1 ∈ pruneAsk st.ask_map st.ask_heap :=
        mem_pruneAskN (find_isSome_of_mem hpr) _ _ (hc2 pr hpr)
      exact minO_le hmemp hm
  · intro he
    cases hm : maxO (pruneOB st).bid_heap with
    | none => rfl
    | some t =>
      have hfound := pruneBidN_top_found le_rfl hm
      rw [he] at hfound
      simp [mapFind?] at hfound
  · intro he
    cases hm : minO (pruneOB st).ask_heap with
    | none => rfl
    | some t =>
      have hfound := pruneAskN_top_found le_rfl hm
      rw [he] at hfound
      simp [mapFind?] at hfound
  · intro b a hb ha
    simp only [spreadOf, hb, ha]

theorem c4_pruned_tops_are_best_witness :
    ((applyEvent ⟨[], [], [], []⟩
        ⟨some 1, some 2, [(some 50, some 2)], [(some 60, some 3)]⟩).1.bid_map ≠ [] →
      ∃ b, maxO (pruneOB (applyEvent ⟨[], [], [], []⟩
        ⟨some 1, some 2, [(some 50, some 2)], [(some 60, some 3)]⟩).1).bid_heap = some b ∧
        (mapFind? (applyEvent ⟨[], [], [], []⟩
          ⟨some 1, some 2, [(some 50, some 2)], [(some 60, some 3)]⟩).1.bid_map b).isSome ∧
        ∀ pr ∈ (applyEvent ⟨[], [], [], []⟩
          ⟨some 1, some 2, [(some 50, some 2)], [(some 60, some 3)]⟩).1.bid_map, pr.1 ≤ b) ∧
    ((applyEvent ⟨[], [], [], []⟩
        ⟨some 1, some 2, [(some 50, some 2)], [(some 60, some 3)]⟩).1.ask_map ≠ [] →
      ∃ a, minO (pruneOB (applyEvent ⟨[], [], [], []⟩
        ⟨some 1, some 2, [(some 50, some 2)], [(some 60, some 3)]⟩).1).ask_heap = some a ∧
        (mapFind? (applyEvent ⟨[], [], [], []⟩
          ⟨some 1, some 2, [(some 50, some 2)], [(some 60, some 3)]⟩).1.ask_map a).isSome ∧
        ∀ pr ∈ (applyEvent ⟨[], [], [], []⟩
          ⟨some 1, some 2, [(some 50, some 2)], [(some 60, some 3)]⟩).1.ask_map, a ≤ pr.1) :=
  ⟨(c4_pruned_tops_are_best _ (ReachableOB.event _ ReachableOB.base)).1,
   (c4_pruned_tops_are_best _ (ReachableOB.event _ ReachableOB.base)).2.1⟩

theorem applyLevels_find_preserve_none {p : ℤ} :
    ∀ {ls : List (Option ℤ × Option ℤ)} {m : List (ℤ × ℤ)} {h : List ℤ},
      (∀ q', ((some p : Option ℤ), (some q' : Option ℤ)) ∈ ls → q' ≤ 0) →
      mapFind? m p = none → mapFind? (applyLevels m h ls).1 p = none := by
  intro ls
  induction ls with
  | nil => intro m h _ hnone; exact hnone
  | cons lv rest ih =>
    intro m h hall hnone
    match h1 : lv.1 with
    | none => simp only [applyLevels, h1]; exact hnone
    | some price =>
      match h2 : lv.2 with
      | none => simp only [applyLevels, h1, h2]; exact hnone
      | some quantity =>
        have hlv : lv = (some price, some quantity) := by
          rw [← h1, ← h2]
        by_cases hp : price = p
        · subst hp
          have hq : quantity ≤ 0 := hall quantity (by rw [← hlv]; exact List.mem_cons_self _ _)
          have hneg : ¬ 0 < quantity := by omega
          simp only [applyLevels, h1, h2, hneg, if_neg, not_false_eq_true]
          apply ih
          · intro q' hq'
            exact hall q' (List.mem_cons_of_mem _ hq')
          · rw [find_mapErase]
            simp
        · by_cases hpos : 0 < quantity
          · simp only [applyLevels, h1, h2, hpos, if_pos]
            apply ih
            · intro q' hq'
              exact hall q' (List.mem_cons_of_mem _ hq')
            · rw [find_mapInsert]
              simp only [hp, if_neg, not_false_eq_true]
              exact hnone
          · simp only [applyLevels, h1, h2, hpos, if_neg, not_false_eq_true]
            apply ih
            · intro q' hq'
              exact hall q' (List.mem_cons_of_mem _ hq')
            · rw [find_mapErase]
              simp only [hp, if_neg, not_false_eq_true]
              exact hnone

theorem applyLevels_find_none {p : ℤ} :
    ∀ {ls : List (Option ℤ × Option ℤ)} {m : List (ℤ × ℤ)} {h : List ℤ} {q0 : ℤ},
      ((some p, some q0) ∈ ls) →
      (∀ q', ((some p : Option ℤ), (some q' : Option ℤ)) ∈ ls → q' ≤ 0) →
      (∀ lv ∈ ls, lv.1.isSome ∧ lv.2.isSome) →
      mapFind? (applyLevels m h ls).1 p = none := by
  intro ls
  induction ls with
  | nil => intro m h q0 hocc; simp at hocc
  | cons lv rest ih =>
    intro m h q0 hocc hall hparse
    obtain ⟨hp1, hp2⟩ := hparse lv (List.mem_cons_self _ _)
    obtain ⟨price, h1⟩ := Option.isSome_iff_exists.mp hp1
    obtain ⟨quantity, h2⟩ := Option.isSome_iff_exists.mp hp2
    have hlv : lv = (some price, some quantity) := by
      rw [← h1, ← h2]
    by_cases hp : price = p
    · subst hp
      have hq : quantity ≤ 0 := hall quantity (by rw [← hlv]; exact List.mem_cons_self _ _)
      have hneg : ¬ 0 < quantity := by omega
      simp only [applyLevels, h1, h2, hneg, if_neg, not_false_eq_true]
      apply applyLevels_find_preserve_none
      · intro q' hq'
        exact hall q' (List.mem_cons_of_mem _ hq')
      · rw [find_mapErase]
        simp
    · have hocc' : ((some p : Option ℤ), (some q0 : Option ℤ)) ∈ rest := by
        rcases List.mem_cons.mp hocc with he | hm
        · rw [hlv] at he
          simp at he
          exact absurd he.1.symm hp
        · exact hm
      have hall' : ∀ q', ((some p : Option ℤ), (some q' : Option ℤ)) ∈ rest → q' ≤ 0 :=
        fun q' hq' => hall q' (List.mem_cons_of_mem _ hq')
      have hparse' : ∀ lv' ∈ rest, lv'.1.isSome ∧ lv'.2.isSome :=
        fun lv' hl => hparse lv' (List.mem_cons_of_mem _ hl)
      by_cases hpos : 0 < quantity
      · simp only [applyLevels, h1, h2, hpos, if_pos]
        exact ih hocc' hall' hparse'
      · simp only [applyLevels, h1, h2, hpos, if_neg, not_false_eq_true]
        exact ih hocc' hall' hparse'

theorem applyEvent_bid_map (st : OrderBookState) (e : Binance_DiffDepth) :
    ((applyEvent st e).1).bid_map = (applyLevels st.bid_map st.bid_heap e.bids).1 := by
  simp only [applyEvent]
  by_cases hok : (applyLevels st.bid_map st.bid_heap e.bids).2.2 = true <;> simp [hok]

theorem applyLevels_ok_of_parsed {ls : List (Option ℤ × Option ℤ)} :
    ∀ {m : List (ℤ × ℤ)} {h : List ℤ}, (∀ lv ∈ ls, lv.1.isSome ∧ lv.2.isSome) →
      (applyLevels m h ls).2.2 = true := by
  induction ls with
  | nil => intro m h _; rfl
  | cons lv rest ih =>
    intro m h hparse
    obtain ⟨hp1, hp2⟩ := hparse lv (List.mem_cons_self _ _)
    obtain ⟨price, h1⟩ := Option.isSome_iff_exists.mp hp1
    obtain ⟨quantity, h2⟩ := Option.isSome_iff_exists.mp hp2
    have hrest : ∀ lv' ∈ rest, lv'.1.isSome ∧ lv'.2.isSome :=
      fun lv' hl => hparse lv' (List.mem_cons_of_mem _ hl)
    by_cases hpos : 0 < quantity
    · simp only [applyLevels, h1, h2, hpos, if_pos]
      exact ih hrest
    · simp only [applyLevels, h1, h2, hpos, if_neg, not_false_eq_true]
      exact ih hrest

theorem applyEvent_ask_map_of_bids_ok (st : OrderBookState) (e : Binance_DiffDepth)
    (hok : (applyLevels st.bid_map st.bid_heap e.bids).2.2 = true) :
    ((applyEvent st e).1).ask_map = (applyLevels st.ask_map st.ask_heap e.asks).1 := by
  simp [applyEvent, hok]

/-- C5: on every reachable book state no bid or ask map entry has a
non-positive quantity; applying an update all of whose levels parse and all
of whose bid (resp. ask) levels at price `p` carry quantity ≤ 0 (with at
least one such level present) leaves `p` absent from the bid (resp. ask)
map; and a price absent from a side's map can never be that side's pruned
heap top, hence never a best-bid or best-ask result. -/
theorem c5_no_nonpositive_entries :
    (∀ st, ReachableOB st →
      (∀ pr ∈ st.bid_map, 0 < pr.2) ∧ (∀ pr ∈ st.ask_map, 0 < pr.2)) ∧
    (∀ st e (p q0 : ℤ), (∀ lv ∈ e.bids, lv.1.isSome ∧ lv.2.isSome) →
      ((some p, some q0) ∈ e.bids) →
      (∀ q', ((some p : Option ℤ), (some q' : Option ℤ)) ∈ e.bids → q' ≤ 0) →
      mapFind? ((applyEvent st e).1).bid_map p = none) ∧
    (∀ st e (p q0 : ℤ), (∀ lv ∈ e.bids, lv.1.isSome ∧ lv.2.isSome) →
      (∀ lv ∈ e.asks, lv.1.isSome ∧ lv.2.isSome) →
      ((some p, some q0) ∈ e.asks) →
      (∀ q', ((some p : Option ℤ), (some q' : Option ℤ)) ∈ e.asks → q' ≤ 0) →
      mapFind? ((applyEvent st e).1).ask_map p = none) ∧
    (∀ m h (p : ℤ), mapFind? m p = none →
      ∀ t, maxO (pruneBid m h) = some t → t ≠ p) ∧
    (∀ m h (p : ℤ), mapFind? m p = none →
      ∀ t, minO (pruneAsk m h) = some t → t ≠ p) := by
  refine ⟨?_, ?_, ?_, ?_, ?_⟩
  · intro st hreach
    obtain ⟨hq1, hq2, -, -⟩ := reachable_good hreach
    exact ⟨hq1, hq2⟩
  · intro st e p q0 hparse hocc hall
    rw [applyEvent_bid_map]
    exact applyLevels_find_none hocc hall hparse
  · intro st e p q0 hparseb hparsea hocc hall
    rw [applyEvent_ask_map_of_bids_ok st e (applyLevels_ok_of_parsed hparseb)]
    exact applyLevels_find_none hocc hall hparsea
  · intro m h p hnone t htop he
    subst he
    have := pruneBidN_top_found le_rfl htop
    rw [hnone] at this
    simp at this
  · intro m h p hnone t htop he
    subst he
    have := pruneAskN_top_found le_rfl htop
    rw [hnone] at this
    simp at this

theorem c5_no_nonpositive_entries_witness :
    ((∀ pr ∈ (applyEvent ⟨[], [], [], []⟩
        ⟨some 1, some 2, [(some 50, some 3)], []⟩).1.bid_map, 0 < pr.2) ∧
      (∀ pr ∈ (applyEvent ⟨[], [], [], []⟩
        ⟨some 1, some 2, [(some 50, some 3)], []⟩).1.ask_map, 0 < pr.2)) ∧
    mapFind? ((applyEvent ⟨[(50, 3)], [], [50], []⟩
      ⟨some 3, some 4, [(some 50, some 0)], []⟩).1).bid_map 50 = none ∧
    mapFind? ((applyEvent ⟨[], [(70, 4)], [], [70]⟩
      ⟨some 3, some 4, [], [(some 70, some 0)]⟩).1).ask_map 70 = none ∧
    (∀ t, maxO (pruneBid [(60, 2)] [50, 60]) = some t → t ≠ 50) ∧
    (∀ t, minO (pruneAsk [(60, 2)] [50, 60]) = some t → t ≠ 50) :=
  ⟨(c5_no_nonpositive_entries.1 _ (ReachableOB.event _ ReachableOB.base)),
   (c5_no_nonpositive_entries.2.1 ⟨[(50, 3)], [], [50], []⟩
      ⟨some 3, some 4, [(some 50, some 0)], []⟩ 50 0
      (by intro lv hl; simp at hl; rw [hl]; exact ⟨rfl, rfl⟩)
      (by simp)
      (by intro q' hq'; simp at hq'; omega)),
   (c5_no_nonpositive_entries.2.2.1 ⟨[], [(70, 4)], [], [70]⟩
      ⟨some 3, some 4, [], [(some 70, some 0)]⟩ 70 0
      (by intro lv hl; simp at hl)
      (by intro lv hl; simp at hl; rw [hl]; exact ⟨rfl, rfl⟩)
      (by simp)
      (by intro q' hq'; simp at hq'; omega)),
   (c5_no_nonpositive_entries.2.2.2.1 [(60, 2)] [50, 60] 50 (by rfl)),
   (c5_no_nonpositive_entries.2.2.2.2 [(60, 2)] [50, 60] 50 (by rfl))⟩

/-! ### Live-loop and init behaviour at concrete inputs (claims C1, C2, C3, C9, C10) -/

/-- C1: the live loop's checks diverge from the claim.  First conjunct: with
cursor 1000, a perfectly contiguous update `(U = 1001, u = 1005)` — neither
stale (`u > cursor`) nor a gap per the claim (`U = cursor + 1`) — makes the
code take the resync branch (`first > local`); with the snapshot endpoint
failing, `init`'s throw is swallowed and the update is dropped: the book
stays empty and the cursor stays 1000, instead of the update being applied
and the cursor advancing to 1005.  Second conjunct: an update with
`u = cursor = 1000` — stale per the claim (`u ≤ cursor`) — is applied by the
code (its check is strict `<`), mutating the book.  The last two conjuncts
record that the claim classifies the first input as "apply" and the second
as "stale". -/
theorem c1_live_loop_checks_eval :
    keepIter (fun _ => SnapAttempt.httpFail) ⟨[], [], [], []⟩
      ⟨[⟨some 1001, some 1005, [(some 50, some 2)], []⟩], true⟩ 1000 =
      (⟨[], [], [], []⟩, ⟨[], true⟩, 1000) ∧
    keepIter (fun _ => SnapAttempt.httpFail) ⟨[], [], [], []⟩
      ⟨[⟨some 990, some 1000, [(some 70, some 1)], []⟩], true⟩ 1000 =
      (⟨[(70, 1)], [], [70], []⟩, ⟨[], true⟩, 1000) ∧
    (¬ (1005 : ℤ) ≤ 1000 ∧ ¬ (1001 : ℤ) > 1000 + 1) ∧
    (1000 : ℤ) ≤ 1000 := by
  refine ⟨rfl, rfl, by decide, by decide⟩

/-- C2: `init` never clears the maps or heaps, and after a resync the live
loop's cursor is the triggering event's final id, not the snapshot's `L`.
Starting from a book holding bid level `(99, 5)` and cursor 5, the event
`(U = 10, u = 12)` triggers a resync; the snapshot (`L = 20`) contains only
the bid level `(50, 1)`, yet after the resync the book still contains the
stale level `(99, 5)` and the cursor is 12, not `L = 20`. -/
theorem c2_resync_keeps_stale_book_eval :
    keepIter (fun k => if k = 0 then SnapAttempt.snap 20 [some (50, 1)] [] else SnapAttempt.httpFail)
      ⟨[(99, 5)], [], [99], []⟩
      ⟨[⟨some 10, some 12, [], []⟩, ⟨some 11, some 13, [], []⟩], true⟩ 5 =
      (⟨[(99, 5), (50, 1)], [], [50, 99], []⟩, ⟨[], true⟩, 12) ∧
    mapFind? [(99, 5), (50, 1)] 99 = some 5 ∧
    (12 : ℤ) ≠ 20 := by
  refine ⟨rfl, rfl, by decide⟩

/-- C3: on the claim's own scenario — snapshot `L = 1000`, buffered updates
`(995, 999)`, `(1000, 1005)`, `(1006, 1010)` — `init`'s drain loop pushes the
straddling update `(1000, 1005)` back via `try_push`, i.e. to the TAIL of the
ring, behind `(1006, 1010)`; the buffer after sync is
`[(1006, 1010), (1000, 1005)]`, so the first live update popped would be
`(1006, 1010)`, not the straddler. -/
theorem c3_drain_requeues_straddler_at_tail_eval :
    init ⟨[], [], [], []⟩
      ⟨[⟨some 995, some 999, [], []⟩, ⟨some 1000, some 1005, [], []⟩,
        ⟨some 1006, some 1010, [], []⟩], true⟩
      (fun k => if k = 0 then SnapAttempt.snap 1000 [] [] else SnapAttempt.httpFail) =
      .ok (⟨[], [], [], []⟩,
        ⟨[⟨some 1006, some 1010, [], []⟩, ⟨some 1000, some 1005, [], []⟩], true⟩, 1000) ∧
    (⟨[⟨some 1006, some 1010, [], []⟩, ⟨some 1000, some 1005, [], []⟩], true⟩ :
      ListBuf).items.head? = some ⟨some 1006, some 1010, [], []⟩ := by
  refine ⟨rfl, rfl⟩

theorem tryReadLoop_nil {buf : ListBuf} (h : buf.items = []) :
    ∀ n, tryReadLoop buf n = none := by
  intro n
  induction n with
  | zero => rfl
  | succ n ih => simp [tryReadLoop, h, ih]

theorem tryReadLoop_cons {buf : ListBuf} {e : Binance_DiffDepth}
    {rest : List Binance_DiffDepth} (h : buf.items = e :: rest) (n : ℕ) :
    tryReadLoop buf (n + 1) = some e := by
  simp [tryReadLoop, h]

/-- C9 (counterexample): an attempt stream whose first fetch parses
`lastUpdateId = 10 ≥ U0 = 5` but then fails before loading any level, followed
by HTTP failures for every remaining attempt, exhausts the whole snapshot
retry budget without ever accepting a snapshot — yet `init` succeeds (the
final-validation check only compares the last parsed `lastUpdateId` against
`U0`), refuting "exceeding that budget is likewise fatal". -/
theorem c9_budget_exhaustion_not_fatal_counterexample :
    init ⟨[], [], [], []⟩ ⟨[⟨some 5, some 7, [], []⟩], true⟩
      (fun k => if k = 0 then SnapAttempt.headerOnly 10 else SnapAttempt.httpFail) =
      .ok (⟨[], [], [], []⟩, ⟨[], true⟩, 10) ∧
    (∀ k L bids asks,
      (fun k => if k = 0 then SnapAttempt.headerOnly 10 else SnapAttempt.httpFail) k ≠
        SnapAttempt.snap L bids asks) := by
  constructor
  · rfl
  · intro k L bids asks
    by_cases hk : k = 0 <;> simp [hk]

/-- C9 (amended): the peek of the oldest buffered update is retried up to
`MAX_RETRIES` and a persistently empty buffer is fatal; `init` never returns
success with a snapshot cursor `L` smaller than the observed `U0`; and
exhausting the snapshot retry budget is fatal exactly when the last parsed
`lastUpdateId` (0 if none parsed) is still below `U0` — an attempt that
parses `lastUpdateId ≥ U0` and then fails lets `init` succeed without a
snapshot. -/
theorem c9_init_retry_budgets_amended :
    (∀ (st : OrderBookState) (buf : ListBuf) (att : ℕ → SnapAttempt),
      buf.is_ready = true → buf.items = [] →
      init st buf att = .error .readRetriesExhausted) ∧
    (∀ (st : OrderBookState) (buf : ListBuf) (att : ℕ → SnapAttempt)
      (st2 : OrderBookState) (buf2 : ListBuf) (L : ℤ),
      init st buf att = .ok (st2, buf2, L) →
      ∃ e rest u0, buf.items = e :: rest ∧ e.first_update_id = some u0 ∧ u0 ≤ L) ∧
    (∀ (st : OrderBookState) (buf : ListBuf) (att : ℕ → SnapAttempt)
      (e : Binance_DiffDepth) (rest : List Binance_DiffDepth) (u0 : ℤ),
      buf.is_ready = true → buf.items = e :: rest → e.first_update_id = some u0 →
      ((snapLoop u0 att MAX_SNAPSHOT_RETRIES 0 0 st).1 < u0 ↔
        init st buf att = .error .invalidSnapshot)) := by
  refine ⟨?_, ?_, ?_⟩
  · intro st buf att hready hitems
    simp [init, hready, tryReadLoop_nil hitems]
  · intro st buf att st2 buf2 L hok
    cases hready : buf.is_ready with
    | false => simp [init, hready] at hok
    | true =>
      cases hitems : buf.items with
      | nil => simp [init, hready, tryReadLoop_nil hitems] at hok
      | cons e rest =>
        have hread : tryReadLoop buf MAX_RETRIES = some e := tryReadLoop_cons hitems 9
        cases hfid : e.first_update_id with
        | none => simp [init, hready, hread, hfid] at hok
        | some u0 =>
          by_cases hlt : (snapLoop u0 att MAX_SNAPSHOT_RETRIES 0 0 st).1 < u0
          · simp [init, hready, hread, hfid, hlt] at hok
          · refine ⟨e, rest, u0, rfl, hfid, ?_⟩
            simp only [init, hready, if_pos, hread, hfid, hlt, if_neg, not_false_eq_true] at hok
            have hL : L = (snapLoop u0 att MAX_SNAPSHOT_RETRIES 0 0 st).1 := by
              have := hok
              simp at this
              exact this.2.2.symm
            omega
  · intro st buf att e rest u0 hready hitems hfid
    have hread : tryReadLoop buf MAX_RETRIES = some e := tryReadLoop_cons hitems 9
    constructor
    · intro hlt
      simp [init, hready, hread, hfid, hlt]
    · intro herr
      by_contra hge
      simp [init, hready, hread, hfid, hge] at herr

theorem c9_init_retry_budgets_amended_witness :
    init ⟨[], [], [], []⟩ ⟨[], true⟩ (fun _ => SnapAttempt.httpFail) =
      .error .readRetriesExhausted ∧
    (∃ e rest u0,
      ([⟨some 10, some 12, [], []⟩] : List Binance_DiffDepth) = e :: rest ∧
      e.first_update_id = some u0 ∧ u0 ≤ 20) ∧
    ((snapLoop 5 (fun _ => SnapAttempt.httpFail) MAX_SNAPSHOT_RETRIES 0 0
        ⟨[], [], [], []⟩).1 < 5 ↔
      init ⟨[], [], [], []⟩ ⟨[⟨some 5, some 7, [], []⟩], true⟩
        (fun _ => SnapAttempt.httpFail) = .error .invalidSnapshot) :=
  ⟨c9_init_retry_budgets_amended.1 ⟨[], [], [], []⟩ ⟨[], true⟩ (fun _ => SnapAttempt.httpFail)
      rfl rfl,
   c9_init_retry_budgets_amended.2.1 ⟨[], [], [], []⟩
      ⟨[⟨some 10, some 12, [], []⟩], true⟩
      (fun k => if k = 0 then SnapAttempt.snap 20 [] [] else SnapAttempt.httpFail)
      ⟨[], [], [], []⟩ ⟨[], true⟩ 20 rfl,
   c9_init_retry_budgets_amended.2.2 ⟨[], [], [], []⟩
      ⟨[⟨some 5, some 7, [], []⟩], true⟩ (fun _ => SnapAttempt.httpFail)
      ⟨some 5, some 7, [], []⟩ [] 5 rfl rfl rfl⟩

/-- C10 (counterexample): cursor 5, update `(U = 5, u = 7)` with bid levels
`[(50, 2), (60, malformed)]`: the second level's quantity fails to parse, the
exception aborts the update — but the first level has already been applied:
the bid map gains `(50, 2)` (and the index gains 50) instead of being left as
it was before the pop.  The cursor does stay 5 and the loop continues. -/
theorem c10_incomplete_update_application_counterexample :
    keepIter (fun _ => SnapAttempt.httpFail) ⟨[], [], [], []⟩
      ⟨[⟨some 5, some 7, [(some 50, some 2), (some 60, none)], []⟩], true⟩ 5 =
      (⟨[(50, 2)], [], [50], []⟩, ⟨[], true⟩, 5) := by
  rfl

/-- C10 (amended): when a popped non-stale, non-gap update aborts with a
malformed numeric field (`applyEvent` returns `false`), the live loop
catches the error and continues: the cursor is not advanced and the rest of
the update is skipped, but the levels applied before the malformed field
remain applied (the iteration ends with the partially mutated, pruned
state). -/
theorem c10_malformed_field_drops_rest_amended
    (att : ℕ → SnapAttempt) (st : OrderBookState) (buf : ListBuf)
    (e : Binance_DiffDepth) (rest : List Binance_DiffDepth)
    (local_update_id U u : ℤ) (st3 : OrderBookState)
    (hready : buf.is_ready = true) (hitems : buf.items = e :: rest)
    (hU : e.first_update_id = some U) (hu : e.final_update_id = some u)
    (hstale : ¬ u < local_update_id) (hgap : ¬ local_update_id < U)
    (happly : applyEvent st e = (st3, false)) :
    keepIter att st buf local_update_id =
      (pruneOB st3, ⟨rest, buf.is_ready⟩, local_update_id) := by
  simp [keepIter, hready, hitems, hU, hu, hstale, hgap, happly]

theorem c10_malformed_field_drops_rest_amended_witness :
    keepIter (fun _ => SnapAttempt.httpFail) ⟨[], [], [], []⟩
      ⟨[⟨some 5, some 7, [(some 50, some 2), (some 60, none)], []⟩], true⟩ 5 =
      (pruneOB ⟨[(50, 2)], [], [50], []⟩, ⟨[], true⟩, 5) :=
  c10_malformed_field_drops_rest_amended (fun _ => SnapAttempt.httpFail)
    ⟨[], [], [], []⟩
    ⟨[⟨some 5, some 7, [(some 50, some 2), (some 60, none)], []⟩], true⟩
    ⟨some 5, some 7, [(some 50, some 2), (some 60, none)], []⟩ [] 5 5 7
    ⟨[(50, 2)], [], [50], []⟩ rfl rfl rfl rfl (by decide) (by decide) rfl

end CryptoPP
